import Mathlib

/-!
Verification of the container/comparison engine of diffoscope
(`src/diffoscope/comparators/utils/container.py` and
`src/diffoscope/comparators/ar.py`) against its specification.

The data model is a shallow embedding: a `File` is either a real artifact
(with a name, a byte content string, and an optional already-specialized
container facet, mirroring `file.as_container` after `specialize`) or a
`MissingFile(path, other_file)` sentinel.  A `Container` wraps an ordered
member mapping (`collections.OrderedDict` is embedded as an association
list with unique keys); the three constructor shapes mirror the concrete
classes visible in the source: a generic concrete container, a
`OneMemberContainer` (whose `get_nested_container` returns the container
facet of its first member), and a `MissingContainer`.
-/

namespace Diffoscope

mutual

inductive File : Type where
  | real : String → String → Option Container → File
  | missing : String → Option File → File

inductive Container : Type where
  | generic : List (String × File) → Container
  | oneMember : List (String × File) → Container
  | missingContainer : File → Container

end

/-- Whether a file is the `MissingFile` sentinel (`isinstance(source, MissingFile)`). -/
def File.isMissing : File → Bool
  | .missing _ _ => true
  | _ => false

/-- Container facet of a file: `file.as_container` after `specialize` has run.
The `specialize` module is not under `src/`; the spec (§4.3) makes it a pure,
idempotent classification that attaches the facet once, so the embedding
carries the facet as an immutable field of a real file.  A `MissingFile` has
no facet of its own here (a `MissingContainer` is obtained by constructing a
container from it, see `containerNew`). -/
def File.asContainer : File → Option Container
  | .real _ _ c => c
  | .missing _ _ => none

/-- Underlying ordered member listing of the concrete container classes. -/
def Container.rawMembers : Container → List (String × File)
  | .generic ms => ms
  | .oneMember ms => ms
  | .missingContainer _ => []

/-- Embeds `Container.get_member_names`.  The concrete classes list their own
members; `MissingContainer.get_member_names` returns
`self.source.other_file.as_container.get_member_names()` (container.py line
167-168).  In Python a missing `other_file` or absent `as_container` facet
would raise `AttributeError`; the embedding returns `[]` in those degenerate
cases, which the theorems exclude by hypothesis. -/
def Container.get_member_names : Container → List String
  | .generic ms => ms.map Prod.fst
  | .oneMember ms => ms.map Prod.fst
  | .missingContainer (.missing _ (some (.real _ _ (some c)))) => c.get_member_names
  | .missingContainer _ => []

/-- Embeds `Container.get_member` / `MissingContainer.get_member`.  Concrete
containers fetch by name (a `KeyError`, caught by `lookup_file`, is `none`);
`MissingContainer.get_member` returns `MissingFile('/dev/null')` for every
requested name (container.py line 170-171). -/
def Container.get_member : Container → String → Option File
  | .generic ms, n => (ms.find? (fun p => p.1 == n)).map Prod.snd
  | .oneMember ms, n => (ms.find? (fun p => p.1 == n)).map Prod.snd
  | .missingContainer _, _ => some (.missing "/dev/null" none)

/-- Embeds `Container.get_members` (an `OrderedDict` of
`get_all_members()`, i.e. `(name, get_member(name))` in listing order).  For
the concrete classes with unique member names this is the raw listing; for a
`MissingContainer` every member is the `MissingFile('/dev/null')` sentinel. -/
def Container.get_members : Container → List (String × File)
  | .generic ms => ms
  | .oneMember ms => ms
  | .missingContainer src =>
      (Container.missingContainer src).get_member_names.map
        (fun n => (n, File.missing "/dev/null" none))

/-- Embeds `get_nested_container`: the base class returns `None`;
`OneMemberContainer` returns `specialize`d `as_container` of
`get_member(get_member_names()[0])` (container.py lines 174-182).  In Python
an empty listing would raise `IndexError`; the embedding returns `none`. -/
def Container.get_nested_container : Container → Option Container
  | .oneMember ((_, f) :: _) => f.asContainer
  | _ => none

/-- A comparison pairing as yielded by `comparisons`: left member, right
member, optional comment. -/
abbrev Pairing := File × File × Option String

/-- Looks up key `n` in an ordered mapping and removes its first binding,
embedding `OrderedDict.pop(n)` (which removes the unique binding of `n`):
returns the bound value together with the mapping without that binding. -/
def lookupRemove (n : String) : List (String × File) → Option (File × List (String × File))
  | [] => none
  | (k, v) :: rest =>
      if k = n then some (v, rest)
      else
        match lookupRemove n rest with
        | some (w, rest') => some (w, (k, v) :: rest')
        | none => none

/-- Exact-name pass of `comparisons` (container.py lines 133-142): walk
`my_members` in listing order (`popitem(last=False)`); a name present in
`other_members` yields a pairing with no comment and removes both sides;
otherwise the member is kept in `my_reminders` (in listing order).  Returns
(pairings in yield order, my_reminders, remaining other_members). -/
def exactPass : List (String × File) → List (String × File) →
    List Pairing × List (String × File) × List (String × File)
  | [], others => ([], [], others)
  | (n, m) :: rest, others =>
      match lookupRemove n others with
      | some (o, others') =>
          let r := exactPass rest others'
          ((m, o, none) :: r.1, r.2.1, r.2.2)
      | none =>
          let r := exactPass rest others
          (r.1, (n, m) :: r.2.1, r.2.2)

/-- Comment attached to a fuzzy pairing (container.py line 144). -/
def fuzzyComment (score : Nat) : String :=
  "Files similar despite different names (difference score: " ++ toString score ++ ")"

/-- Fuzzy pass of `comparisons` (container.py lines 143-146): for each match
`(my_name, other_name, score)` pop both members and yield them with the
similarity comment.  In Python a name absent from the mapping would raise
`KeyError`; the embedding skips such a match, and the modelled matcher never
produces one (`perform_fuzzy_matching_mem`). -/
def fuzzyPass : List (String × String × Nat) → List (String × File) → List (String × File) →
    List Pairing × List (String × File) × List (String × File)
  | [], mine, others => ([], mine, others)
  | (mn, om, s) :: rest, mine, others =>
      match lookupRemove mn mine, lookupRemove om others with
      | some (mf, mine'), some (og, others') =>
          let r := fuzzyPass rest mine' others'
          ((mf, og, some (fuzzyComment s)) :: r.1, r.2.1, r.2.2)
      | _, _ => fuzzyPass rest mine others

/-- Modelled from the spec: `perform_fuzzy_matching` lives in
`comparators/utils/fuzzy.py`, which is not under `src/`.  Spec §4.2: compute
for every cross pair a similarity score (a pluggable content-similarity
function, passed here as `score`); keep the pairs at or above a fixed
threshold.  Candidates are generated in self listing order (then other
listing order) so that the later stable sort breaks ties deterministically. -/
def fuzzyCandidates (score : File → File → Nat) (threshold : Nat)
    (mine others : List (String × File)) : List (String × String × Nat) :=
  mine.flatMap (fun mp =>
    others.filterMap (fun op =>
      if threshold ≤ score mp.2 op.2 then some (mp.1, op.1, score mp.2 op.2) else none))

/-- Modelled from the spec: stable insertion into a descending-score list; an
element is placed before `b` only when its score strictly exceeds `b`'s, so
equal scores keep their existing order (spec §4.2 determinism requirement). -/
def insertDesc (a : String × String × Nat) :
    List (String × String × Nat) → List (String × String × Nat)
  | [] => [a]
  | b :: l => if b.2.2 < a.2.2 then a :: b :: l else b :: insertDesc a l

/-- Modelled from the spec: stable sort by descending score (spec §4.2:
greedy acceptance in descending score order, ties broken by the stable
candidate-generation order). -/
def sortDesc (l : List (String × String × Nat)) : List (String × String × Nat) :=
  l.foldl (fun acc a => insertDesc a acc) []

/-- Modelled from the spec: greedy acceptance — walk the sorted candidates,
accept a pair when neither side has been consumed yet (spec §4.2: each member
consumed by at most one pairing). -/
def greedyAccept : List (String × String × Nat) → List String → List String →
    List (String × String × Nat)
  | [], _, _ => []
  | (mn, om, s) :: rest, um, uo =>
      if mn ∈ um ∨ om ∈ uo then greedyAccept rest um uo
      else (mn, om, s) :: greedyAccept rest (mn :: um) (om :: uo)

/-- Modelled from the spec: the fuzzy matcher of spec §4.2 — score every
cross pair of the still-unmatched members, keep scores at or above the
threshold, sort stably by descending score, and greedily accept, consuming
each member at most once.  (`fuzzy.py` is not under `src/`.) -/
def perform_fuzzy_matching (score : File → File → Nat) (threshold : Nat)
    (mine others : List (String × File)) : List (String × String × Nat) :=
  greedyAccept (sortDesc (fuzzyCandidates score threshold mine others)) [] []

/-- Residual pass of `comparisons` (container.py lines 148-155): only when
`Config().new_file` is set, every remaining self member pairs with
`MissingFile('/dev/null', my_member)` on the right and every remaining other
member with `MissingFile('/dev/null', other_member)` on the left. -/
def residualPass (newFile : Bool) (mine others : List (String × File)) : List Pairing :=
  if newFile then
    mine.map (fun p => (p.2, File.missing "/dev/null" (some p.2), (none : Option String))) ++
      others.map (fun p => (File.missing "/dev/null" (some p.2), p.2, (none : Option String)))
  else []

/-- The exact-name, fuzzy, and residual passes of `comparisons` in sequence
(container.py lines 132-155), over the two ordered member mappings. -/
def comparisonsPasses (newFile : Bool) (score : File → File → Nat) (threshold : Nat)
    (myM otM : List (String × File)) : List Pairing :=
  let e := exactPass myM otM
  let f := fuzzyPass (perform_fuzzy_matching score threshold e.2.1 e.2.2) e.2.1 e.2.2
  e.1 ++ f.1 ++ residualPass newFile f.2.1 f.2.2

/-- Embeds `Container.comparisons(other)` (container.py lines 112-155).
If both sides expose a nested container, yield one pairing of the last
members of the two outer mappings (`popitem()` pops the last item; on an
empty mapping Python would raise `KeyError`, embedded as `[]`) and stop.
Otherwise, a side that exposes a nested container has its mapping replaced
by the nested container's mapping, and the three passes run.
`Config().new_file` is the `newFile` argument; the pluggable similarity
function and threshold of the fuzzy matcher are `score` and `threshold`. -/
def comparisons (newFile : Bool) (score : File → File → Nat) (threshold : Nat)
    (self other : Container) : List Pairing :=
  let myMembers := self.get_members
  let otherMembers := other.get_members
  match self.get_nested_container, other.get_nested_container with
  | some _, some _ =>
      match myMembers.getLast?, otherMembers.getLast? with
      | some pm, some po => [(pm.2, po.2, none)]
      | _, _ => []
  | myNested, otherNested =>
      let myM := match myNested with
        | some c => c.get_members
        | none => myMembers
      let otM := match otherNested with
        | some c => c.get_members
        | none => otherMembers
      comparisonsPasses newFile score threshold myM otM

/-- Embeds `Container.lookup_file(*names)` (container.py lines 62-84) for a
non-empty name sequence `name :: rest`: fetch the first name (`KeyError`
becomes the `none` result), `specialize` it (the facet is already attached in
the embedding), return it if no names remain; otherwise recurse into its
container facet, or return `none` when the member has no such facet. -/
def Container.lookup_file (c : Container) (name : String) (rest : List String) :
    Option File :=
  match c.get_member name with
  | none => none
  | some file =>
      match rest with
      | [] => some file
      | r :: rs =>
          match file.asContainer with
          | none => none
          | some c2 => c2.lookup_file r rs
termination_by rest.length

/-- Names for the concrete `Container` subclasses a caller can request. -/
inductive ContainerClassId : Type where
  | genericClass
  | oneMemberClass
  | missingContainerClass
  | arContainerClass
deriving DecidableEq

/-- Result of constructing a container: the class actually instantiated and
the source stored by `__init__`. -/
structure ConstructedContainer : Type where
  cls : ContainerClassId
  source : File

/-- Embeds `Container.__new__` (container.py lines 39-45): when the source is
a `MissingFile`, the construction returns a `MissingContainer` initialized
with that source, whatever class was requested; otherwise an instance of the
requested class, whose `__init__` stores the source (lines 47-48). -/
def containerNew (cls : ContainerClassId) (source : File) : ConstructedContainer :=
  if source.isMissing then ⟨.missingContainerClass, source⟩
  else ⟨cls, source⟩

/-- The `known_ignores` dict of `ArContainer.get_adjusted_members` (ar.py
lines 42-45): member name mapped to the reason it is ignored. -/
def knownIgnores : List (String × String) :=
  [("/", "this is the symbol table, already accounted for in other output"),
   ("//",
    "this is the table for GNU long names, already accounted for in the archive filelist")]

/-- Embeds `ArContainer.get_adjusted_members` (ar.py lines 40-50): the
parent's adjusted members (`LibarchiveContainer` is not under `src/`, so the
parent listing is taken as the argument) with every member whose name is a
key of `known_ignores` removed; `filtered_out` is only logged. -/
def arGetAdjustedMembers (members : List (String × File)) : List (String × File) :=
  members.filter (fun p => !(knownIgnores.map Prod.fst).contains p.1)

/-! Concrete sample data used to instantiate the claim theorems. -/

/-- A similarity function that scores every pair 0. -/
def zeroScore : File → File → Nat := fun _ _ => 0

def fB : File := File.real "b" "y" none

def fC : File := File.real "c" "z" none

/-- A flat container with members a, b. -/
def sampleSelf : Container :=
  .generic [("a", File.real "a" "x" none), ("b", fB)]

/-- A flat container with members a, c. -/
def sampleOther : Container :=
  .generic [("a", File.real "a" "x" none), ("c", fC)]

/-- A container serving as a nested payload. -/
def sampleNestedInner : Container := .generic [("p", File.real "p" "q" none)]

/-- A one-member wrapper whose single member carries `sampleNestedInner` as
its container facet. -/
def sampleNestedSelf : Container :=
  .oneMember [("w1", File.real "w1" "" (some sampleNestedInner))]

/-- A second such wrapper with a differently named member. -/
def sampleNestedOther : Container :=
  .oneMember [("w2", File.real "w2" "" (some sampleNestedInner))]

/-! Accounting lemmas: every member entry ends up in exactly one place. -/

theorem lookupRemove_perm : ∀ {l : List (String × File)} {l' : List (String × File)}
    {n : String} {v : File},
    lookupRemove n l = some (v, l') → l.Perm ((n, v) :: l')
  | [], _, _, _, h => by simp [lookupRemove] at h
  | (k, w) :: rest, l', n, v, h => by
      by_cases hk : k = n
      · subst hk
        simp [lookupRemove] at h
        obtain ⟨hv, hl⟩ := h
        subst hv hl
        exact List.Perm.refl _
      · simp only [lookupRemove, if_neg hk] at h
        cases hrec : lookupRemove n rest with
        | none => rw [hrec] at h; simp at h
        | some p =>
            obtain ⟨w', rest'⟩ := p
            rw [hrec] at h
            simp only [Option.some.injEq, Prod.mk.injEq] at h
            obtain ⟨hv, hl⟩ := h
            subst hv hl
            exact ((lookupRemove_perm hrec).cons (k, w)).trans
              (List.Perm.swap _ _ _)

theorem lookupRemove_snd_perm {l l' : List (String × File)} {n : String} {v : File}
    (h : lookupRemove n l = some (v, l')) :
    (l.map Prod.snd).Perm (v :: l'.map Prod.snd) :=
  (lookupRemove_perm h).map Prod.snd

/-- Each self member is consumed by exactly one exact-pass pairing (as its
left side) or left in the reminders, and nothing else appears there. -/
theorem exactPass_left_perm : ∀ (mine others : List (String × File)),
    ((exactPass mine others).1.map (fun p => p.1) ++
       (exactPass mine others).2.1.map Prod.snd).Perm (mine.map Prod.snd)
  | [], others => by simp [exactPass]
  | (n, m) :: rest, others => by
      simp only [exactPass]
      cases hlr : lookupRemove n others with
      | some p =>
          obtain ⟨o, others'⟩ := p
          simpa using (exactPass_left_perm rest others').cons m
      | none =>
          simp only [List.map_cons]
          exact (List.perm_middle.trans ((exactPass_left_perm rest others).cons m))

/-- Each other member is consumed by exactly one exact-pass pairing (as its
right side) or left in the remaining other members. -/
theorem exactPass_right_perm : ∀ (mine others : List (String × File)),
    ((exactPass mine others).1.map (fun p => p.2.1) ++
       (exactPass mine others).2.2.map Prod.snd).Perm (others.map Prod.snd)
  | [], others => by simp [exactPass]
  | (n, m) :: rest, others => by
      simp only [exactPass]
      cases hlr : lookupRemove n others with
      | some p =>
          obtain ⟨o, others'⟩ := p
          simp only [List.map_cons, List.cons_append]
          exact ((exactPass_right_perm rest others').cons o).trans
            (lookupRemove_snd_perm hlr).symm
      | none => exact exactPass_right_perm rest others

/-- Each unmatched self member is consumed by exactly one fuzzy pairing (as
its left side) or falls through to the residual pass. -/
theorem fuzzyPass_left_perm : ∀ (ms : List (String × String × Nat))
    (mine others : List (String × File)),
    ((fuzzyPass ms mine others).1.map (fun p => p.1) ++
       (fuzzyPass ms mine others).2.1.map Prod.snd).Perm (mine.map Prod.snd)
  | [], mine, others => by simp [fuzzyPass]
  | (mn, om, s) :: rest, mine, others => by
      simp only [fuzzyPass]
      cases hm : lookupRemove mn mine with
      | none => exact fuzzyPass_left_perm rest mine others
      | some pm =>
          obtain ⟨mf, mine'⟩ := pm
          cases ho : lookupRemove om others with
          | none => exact fuzzyPass_left_perm rest mine others
          | some po =>
              obtain ⟨og, others'⟩ := po
              simp only [List.map_cons, List.cons_append]
              exact ((fuzzyPass_left_perm rest mine' others').cons mf).trans
                (lookupRemove_snd_perm hm).symm

/-- Each unmatched other member is consumed by exactly one fuzzy pairing (as
its right side) or falls through to the residual pass. -/
theorem fuzzyPass_right_perm : ∀ (ms : List (String × String × Nat))
    (mine others : List (String × File)),
    ((fuzzyPass ms mine others).1.map (fun p => p.2.1) ++
       (fuzzyPass ms mine others).2.2.map Prod.snd).Perm (others.map Prod.snd)
  | [], mine, others => by simp [fuzzyPass]
  | (mn, om, s) :: rest, mine, others => by
      simp only [fuzzyPass]
      cases hm : lookupRemove mn mine with
      | none => exact fuzzyPass_right_perm rest mine others
      | some pm =>
          obtain ⟨mf, mine'⟩ := pm
          cases ho : lookupRemove om others with
          | none => exact fuzzyPass_right_perm rest mine others
          | some po =>
              obtain ⟨og, others'⟩ := po
              simp only [List.map_cons, List.cons_append]
              exact ((fuzzyPass_right_perm rest mine' others').cons og).trans
                (lookupRemove_snd_perm ho).symm

/-- When neither side exposes a nested container, `comparisons` is exactly
the three passes over the two (unsubstituted) member mappings. -/
theorem comparisons_eq_passes (newFile : Bool) (score : File → File → Nat)
    (threshold : Nat) (self other : Container)
    (hsn : self.get_nested_container = none)
    (hon : other.get_nested_container = none) :
    comparisons newFile score threshold self other =
      comparisonsPasses newFile score threshold self.get_members other.get_members := by
  simp [comparisons, hsn, hon]

/-- Every non-missing left side of the three passes is a self member, and
each self member appears exactly once among them. -/
theorem comparisonsPasses_left_perm (score : File → File → Nat) (thr : Nat)
    (mine others : List (String × File))
    (hA : ∀ f ∈ mine.map Prod.snd, f.isMissing = false) :
    (((comparisonsPasses true score thr mine others).map (fun p => p.1)).filter
        (fun f => !f.isMissing)).Perm (mine.map Prod.snd) := by
  unfold comparisonsPasses residualPass
  set e := exactPass mine others with he
  set fm := perform_fuzzy_matching score thr e.2.1 e.2.2 with hfm
  set f := fuzzyPass fm e.2.1 e.2.2 with hf
  have hexact := exactPass_left_perm mine others
  have hfuzzy := fuzzyPass_left_perm fm e.2.1 e.2.2
  rw [← he] at hexact
  rw [← hf] at hfuzzy
  have hsub1 : ∀ x ∈ e.1.map (fun p => p.1), x ∈ mine.map Prod.snd :=
    fun x hx => hexact.subset (List.mem_append_left _ hx)
  have hsub2 : ∀ x ∈ e.2.1.map Prod.snd, x ∈ mine.map Prod.snd :=
    fun x hx => hexact.subset (List.mem_append_right _ hx)
  have hsub3 : ∀ x ∈ f.1.map (fun p => p.1), x ∈ mine.map Prod.snd :=
    fun x hx => hsub2 x (hfuzzy.subset (List.mem_append_left _ hx))
  have hsub4 : ∀ x ∈ f.2.1.map Prod.snd, x ∈ mine.map Prod.snd :=
    fun x hx => hsub2 x (hfuzzy.subset (List.mem_append_right _ hx))
  simp only [if_true, List.map_append, List.filter_append, List.map_map]
  have hf1 : (e.1.map (fun p => p.1)).filter (fun x => !x.isMissing) =
      e.1.map (fun p => p.1) :=
    List.filter_eq_self.mpr (fun x hx => by simp [hA x (hsub1 x hx)])
  have hf2 : (f.1.map (fun p => p.1)).filter (fun x => !x.isMissing) =
      f.1.map (fun p => p.1) :=
    List.filter_eq_self.mpr (fun x hx => by simp [hA x (hsub3 x hx)])
  have hf3 : (f.2.1.map ((fun p => p.1) ∘
        fun p => (p.2, File.missing "/dev/null" (some p.2), (none : Option String)))).filter
        (fun x => !x.isMissing) = f.2.1.map Prod.snd := by
    have : (f.2.1.map ((fun p => p.1) ∘
        fun p => (p.2, File.missing "/dev/null" (some p.2), (none : Option String)))) =
        f.2.1.map Prod.snd := by
      simp [Function.comp]
    rw [this]
    exact List.filter_eq_self.mpr (fun x hx => by simp [hA x (hsub4 x hx)])
  have hf4 : (f.2.2.map ((fun p => p.1) ∘
        fun p => (File.missing "/dev/null" (some p.2), p.2, (none : Option String)))).filter
        (fun x => !x.isMissing) = [] := by
    refine List.filter_eq_nil_iff.mpr (fun x hx => ?_)
    simp only [List.mem_map, Function.comp] at hx
    obtain ⟨p, _, hp⟩ := hx
    subst hp
    simp [File.isMissing]
  rw [hf1, hf2, hf3, hf4, List.append_nil, List.append_assoc]
  exact (hfuzzy.append_left _).trans hexact

/-- Every non-missing right side of the three passes is an other member, and
each other member appears exactly once among them. -/
theorem comparisonsPasses_right_perm (score : File → File → Nat) (thr : Nat)
    (mine others : List (String × File))
    (hB : ∀ f ∈ others.map Prod.snd, f.isMissing = false) :
    (((comparisonsPasses true score thr mine others).map (fun p => p.2.1)).filter
        (fun f => !f.isMissing)).Perm (others.map Prod.snd) := by
  unfold comparisonsPasses residualPass
  set e := exactPass mine others with he
  set fm := perform_fuzzy_matching score thr e.2.1 e.2.2 with hfm
  set f := fuzzyPass fm e.2.1 e.2.2 with hf
  have hexact := exactPass_right_perm mine others
  have hfuzzy := fuzzyPass_right_perm fm e.2.1 e.2.2
  rw [← he] at hexact
  rw [← hf] at hfuzzy
  have hsub1 : ∀ x ∈ e.1.map (fun p => p.2.1), x ∈ others.map Prod.snd :=
    fun x hx => hexact.subset (List.mem_append_left _ hx)
  have hsub2 : ∀ x ∈ e.2.2.map Prod.snd, x ∈ others.map Prod.snd :=
    fun x hx => hexact.subset (List.mem_append_right _ hx)
  have hsub3 : ∀ x ∈ f.1.map (fun p => p.2.1), x ∈ others.map Prod.snd :=
    fun x hx => hsub2 x (hfuzzy.subset (List.mem_append_left _ hx))
  have hsub4 : ∀ x ∈ f.2.2.map Prod.snd, x ∈ others.map Prod.snd :=
    fun x hx => hsub2 x (hfuzzy.subset (List.mem_append_right _ hx))
  simp only [if_true, List.map_append, List.filter_append, List.map_map]
  have hf1 : (e.1.map (fun p => p.2.1)).filter (fun x => !x.isMissing) =
      e.1.map (fun p => p.2.1) :=
    List.filter_eq_self.mpr (fun x hx => by simp [hB x (hsub1 x hx)])
  have hf2 : (f.1.map (fun p => p.2.1)).filter (fun x => !x.isMissing) =
      f.1.map (fun p => p.2.1) :=
    List.filter_eq_self.mpr (fun x hx => by simp [hB x (hsub3 x hx)])
  have hf3 : (f.2.1.map ((fun p => p.2.1) ∘
        fun p => (p.2, File.missing "/dev/null" (some p.2), (none : Option String)))).filter
        (fun x => !x.isMissing) = [] := by
    refine List.filter_eq_nil_iff.mpr (fun x hx => ?_)
    simp only [List.mem_map, Function.comp] at hx
    obtain ⟨p, _, hp⟩ := hx
    subst hp
    simp [File.isMissing]
  have hf4 : (f.2.2.map ((fun p => p.2.1) ∘
        fun p => (File.missing "/dev/null" (some p.2), p.2, (none : Option String)))).filter
        (fun x => !x.isMissing) = f.2.2.map Prod.snd := by
    have : (f.2.2.map ((fun p => p.2.1) ∘
        fun p => (File.missing "/dev/null" (some p.2), p.2, (none : Option String)))) =
        f.2.2.map Prod.snd := by
      simp [Function.comp]
    rw [this]
    exact List.filter_eq_self.mpr (fun x hx => by simp [hB x (hsub4 x hx)])
  rw [hf1, hf2, hf3, hf4, List.nil_append, List.append_assoc]
  exact (hfuzzy.append_left _).trans hexact

/-! Properties of the modelled fuzzy matcher. -/

/-- The exact pass emits its pairings in self's original listing order: its
left sides form an order-preserving subsequence of self's member listing. -/
theorem exactPass_lefts_sublist : ∀ (mine others : List (String × File)),
    ((exactPass mine others).1.map (fun p => p.1)).Sublist (mine.map Prod.snd)
  | [], others => by simp [exactPass]
  | (n, m) :: rest, others => by
      simp only [exactPass]
      cases hlr : lookupRemove n others with
      | some p =>
          obtain ⟨o, others'⟩ := p
          simpa using (exactPass_lefts_sublist rest others').cons₂ m
      | none =>
          simpa using (exactPass_lefts_sublist rest others).cons m

theorem insertDesc_perm (a : String × String × Nat) :
    ∀ l : List (String × String × Nat), (insertDesc a l).Perm (a :: l)
  | [] => List.Perm.refl _
  | b :: t => by
      simp only [insertDesc]
      by_cases h : b.2.2 < a.2.2
      · simp [h]
      · simp only [if_neg h]
        exact ((insertDesc_perm a t).cons b).trans (List.Perm.swap _ _ _)

theorem foldl_insertDesc_perm : ∀ (l acc : List (String × String × Nat)),
    (l.foldl (fun acc a => insertDesc a acc) acc).Perm (acc ++ l)
  | [], acc => by simp
  | a :: t, acc => by
      simp only [List.foldl_cons]
      exact (foldl_insertDesc_perm t (insertDesc a acc)).trans
        (((insertDesc_perm a acc).append_right t).trans List.perm_middle.symm)

/-- Sorting keeps exactly the input candidates. -/
theorem sortDesc_perm (l : List (String × String × Nat)) : (sortDesc l).Perm l := by
  simpa using foldl_insertDesc_perm l []

/-- Insertion preserves the descending-score invariant. -/
theorem insertDesc_pairwise (a : String × String × Nat) :
    ∀ l : List (String × String × Nat),
    l.Pairwise (fun x y => y.2.2 ≤ x.2.2) →
    (insertDesc a l).Pairwise (fun x y => y.2.2 ≤ x.2.2)
  | [], _ => by simp [insertDesc]
  | b :: t, h => by
      obtain ⟨hb, ht⟩ := List.pairwise_cons.mp h
      simp only [insertDesc]
      by_cases hba : b.2.2 < a.2.2
      · rw [if_pos hba]
        refine List.Pairwise.cons ?_ h
        intro x hx
        rcases List.mem_cons.mp hx with hx | hx
        · subst hx; omega
        · have := hb x hx
          omega
      · rw [if_neg hba]
        refine List.Pairwise.cons ?_ (insertDesc_pairwise a t ht)
        intro x hx
        rcases List.mem_cons.mp ((insertDesc_perm a t).mem_iff.mp hx) with hx | hx
        · subst hx; omega
        · exact hb x hx

/-- Stability of a single insertion: among candidates of equal score, an
inserted candidate lands after all existing ones. -/
theorem insertDesc_filter (a : String × String × Nat) (s : Nat) :
    ∀ l : List (String × String × Nat),
    l.Pairwise (fun x y => y.2.2 ≤ x.2.2) →
    (insertDesc a l).filter (fun c => c.2.2 == s) =
      if a.2.2 == s then l.filter (fun c => c.2.2 == s) ++ [a]
      else l.filter (fun c => c.2.2 == s)
  | [], _ => by
      by_cases h : a.2.2 = s <;> simp [insertDesc, h]
  | b :: t, h => by
      obtain ⟨hb, ht⟩ := List.pairwise_cons.mp h
      simp only [insertDesc]
      by_cases hba : b.2.2 < a.2.2
      · simp only [if_pos hba]
        by_cases has : a.2.2 = s
        · have hbs : ¬(b.2.2 = s) := by omega
          have htnil : t.filter (fun c => c.2.2 == s) = [] := by
            refine List.filter_eq_nil_iff.mpr (fun x hx => ?_)
            have := hb x hx
            simp only [beq_iff_eq]
            omega
          simp [has, hbs, htnil, List.filter_cons]
        · have : ¬(a.2.2 == s) = true := by simpa using has
          simp [List.filter_cons, this, has]
      · simp only [if_neg hba]
        rw [List.filter_cons, List.filter_cons]
        by_cases hbs : (b.2.2 == s) = true
        · simp only [hbs, if_pos]
          rw [insertDesc_filter a s t ht]
          by_cases has : a.2.2 = s <;> simp [has]
        · simp only [hbs]
          rw [insertDesc_filter a s t ht]
          simp

theorem foldl_insertDesc_filter (s : Nat) :
    ∀ (l acc : List (String × String × Nat)),
    acc.Pairwise (fun x y => y.2.2 ≤ x.2.2) →
    (l.foldl (fun acc a => insertDesc a acc) acc).filter (fun c => c.2.2 == s) =
      acc.filter (fun c => c.2.2 == s) ++ l.filter (fun c => c.2.2 == s)
  | [], acc, _ => by simp
  | a :: t, acc, hacc => by
      simp only [List.foldl_cons]
      rw [foldl_insertDesc_filter s t (insertDesc a acc) (insertDesc_pairwise a acc hacc)]
      rw [insertDesc_filter a s acc hacc, List.filter_cons]
      by_cases has : a.2.2 = s <;> simp [has]

/-- Stability of the modelled sort: for every score value, the candidates of
that score appear in the sorted list exactly in their original (generation)
order — ties are broken by the stable candidate order. -/
theorem sortDesc_stable (l : List (String × String × Nat)) (s : Nat) :
    (sortDesc l).filter (fun c => c.2.2 == s) = l.filter (fun c => c.2.2 == s) := by
  simpa using foldl_insertDesc_filter s l [] List.Pairwise.nil

theorem greedyAccept_subset :
    ∀ {l : List (String × String × Nat)} {um uo : List String}
    {c : String × String × Nat}, c ∈ greedyAccept l um uo → c ∈ l
  | [], _, _, _, h => by simp [greedyAccept] at h
  | (mn, om, s) :: rest, um, uo, c, h => by
      simp only [greedyAccept] at h
      by_cases hc : mn ∈ um ∨ om ∈ uo
      · rw [if_pos hc] at h
        exact List.mem_cons_of_mem _ (greedyAccept_subset h)
      · rw [if_neg hc] at h
        rcases List.mem_cons.mp h with h | h
        · exact h ▸ List.mem_cons_self _ _
        · exact List.mem_cons_of_mem _ (greedyAccept_subset h)

/-- Greedy acceptance consumes each self name at most once and never one
already consumed. -/
theorem greedyAccept_left_nodup :
    ∀ (l : List (String × String × Nat)) (um uo : List String),
    ((greedyAccept l um uo).map (fun c => c.1)).Nodup ∧
      ∀ c ∈ greedyAccept l um uo, c.1 ∉ um
  | [], _, _ => by simp [greedyAccept]
  | (mn, om, s) :: rest, um, uo => by
      simp only [greedyAccept]
      by_cases hc : mn ∈ um ∨ om ∈ uo
      · rw [if_pos hc]
        exact greedyAccept_left_nodup rest um uo
      · rw [if_neg hc]
        obtain ⟨ih₁, ih₂⟩ := greedyAccept_left_nodup rest (mn :: um) (om :: uo)
        push_neg at hc
        constructor
        · simp only [List.map_cons, List.nodup_cons]
          refine ⟨?_, ih₁⟩
          intro hmem
          obtain ⟨c, hcmem, hc1⟩ := List.mem_map.mp hmem
          exact (ih₂ c hcmem) (hc1 ▸ List.mem_cons_self _ _)
        · intro c hcmem
          rcases List.mem_cons.mp hcmem with h | h
          · subst h; exact hc.1
          · exact fun hmem => (ih₂ c h) (List.mem_cons_of_mem _ hmem)

/-- Greedy acceptance consumes each other name at most once and never one
already consumed. -/
theorem greedyAccept_right_nodup :
    ∀ (l : List (String × String × Nat)) (um uo : List String),
    ((greedyAccept l um uo).map (fun c => c.2.1)).Nodup ∧
      ∀ c ∈ greedyAccept l um uo, c.2.1 ∉ uo
  | [], _, _ => by simp [greedyAccept]
  | (mn, om, s) :: rest, um, uo => by
      simp only [greedyAccept]
      by_cases hc : mn ∈ um ∨ om ∈ uo
      · rw [if_pos hc]
        exact greedyAccept_right_nodup rest um uo
      · rw [if_neg hc]
        obtain ⟨ih₁, ih₂⟩ := greedyAccept_right_nodup rest (mn :: um) (om :: uo)
        push_neg at hc
        constructor
        · simp only [List.map_cons, List.nodup_cons]
          refine ⟨?_, ih₁⟩
          intro hmem
          obtain ⟨c, hcmem, hc1⟩ := List.mem_map.mp hmem
          exact (ih₂ c hcmem) (hc1 ▸ List.mem_cons_self _ _)
        · intro c hcmem
          rcases List.mem_cons.mp hcmem with h | h
          · subst h; exact hc.2
          · exact fun hmem => (ih₂ c h) (List.mem_cons_of_mem _ hmem)

/-- Every candidate names a self member and an other member. -/
theorem fuzzyCandidates_mem {score : File → File → Nat} {thr : Nat}
    {mine others : List (String × File)} {c : String × String × Nat}
    (h : c ∈ fuzzyCandidates score thr mine others) :
    c.1 ∈ mine.map Prod.fst ∧ c.2.1 ∈ others.map Prod.fst := by
  simp only [fuzzyCandidates, List.mem_flatMap, List.mem_filterMap] at h
  obtain ⟨mp, hmp, op, hop, hc⟩ := h
  by_cases hs : thr ≤ score mp.2 op.2
  · rw [if_pos hs] at hc
    have hceq : c = (mp.1, op.1, score mp.2 op.2) := by
      injection hc with h
      exact h.symm
    subst hceq
    exact ⟨List.mem_map_of_mem Prod.fst hmp, List.mem_map_of_mem Prod.fst hop⟩
  · rw [if_neg hs] at hc
    exact absurd hc (by simp)

/-- Every fuzzy match names a still-unmatched self member and a
still-unmatched other member, and no name is matched twice. -/
theorem perform_fuzzy_matching_mem {score : File → File → Nat} {thr : Nat}
    {mine others : List (String × File)} {c : String × String × Nat}
    (h : c ∈ perform_fuzzy_matching score thr mine others) :
    c.1 ∈ mine.map Prod.fst ∧ c.2.1 ∈ others.map Prod.fst :=
  fuzzyCandidates_mem ((sortDesc_perm _).subset (greedyAccept_subset h))

theorem perform_fuzzy_matching_nodup (score : File → File → Nat) (thr : Nat)
    (mine others : List (String × File)) :
    ((perform_fuzzy_matching score thr mine others).map (fun c => c.1)).Nodup ∧
    ((perform_fuzzy_matching score thr mine others).map (fun c => c.2.1)).Nodup :=
  ⟨(greedyAccept_left_nodup _ [] []).1, (greedyAccept_right_nodup _ [] []).1⟩

/-! Claim theorems. -/

/-- C1: for every pair of containers with no nested containers, when the
include_added_removed (new_file) flag is true, `comparisons` emits each
member of self in exactly one pairing as its (non-missing) left side and
each member of other in exactly one pairing as its (non-missing) right side:
the multiset of non-missing left sides is exactly self's member listing and
the multiset of non-missing right sides exactly other's — no member is
paired twice and none is omitted.  (The sentinel sides synthesized by the
residual pass are the only missing files filtered out; by hypothesis, as the
spec's data-model invariant states, no listing contains a missing file.) -/
theorem c1_members_paired_exactly_once (score : File → File → Nat) (threshold : Nat)
    (self other : Container)
    (hsn : self.get_nested_container = none)
    (hon : other.get_nested_container = none)
    (hA : ∀ f ∈ self.get_members.map Prod.snd, f.isMissing = false)
    (hB : ∀ f ∈ other.get_members.map Prod.snd, f.isMissing = false) :
    (((comparisons true score threshold self other).map (fun p => p.1)).filter
        (fun f => !f.isMissing)).Perm (self.get_members.map Prod.snd) ∧
    (((comparisons true score threshold self other).map (fun p => p.2.1)).filter
        (fun f => !f.isMissing)).Perm (other.get_members.map Prod.snd) := by
  rw [comparisons_eq_passes true score threshold self other hsn hon]
  exact ⟨comparisonsPasses_left_perm score threshold _ _ hA,
    comparisonsPasses_right_perm score threshold _ _ hB⟩

/-- C2: when both sides expose a nested container (per the source this is
the `OneMemberContainer` situation, whose single member's container facet is
the nested container), `comparisons` emits exactly one pairing, whose sides
are the two wrapper members carrying those nested containers as their
container facets — whatever their member names — and emits nothing else. -/
theorem c2_both_nested_single_pairing (newFile : Bool) (score : File → File → Nat)
    (threshold : Nat) (n₁ n₂ : String) (f₁ f₂ : File) (nc oc : Container)
    (self other : Container)
    (hm₁ : self.get_members = [(n₁, f₁)])
    (hm₂ : other.get_members = [(n₂, f₂)])
    (hn₁ : self.get_nested_container = some nc)
    (hn₂ : other.get_nested_container = some oc) :
    comparisons newFile score threshold self other = [(f₁, f₂, none)] ∧
    f₁.asContainer = some nc ∧ f₂.asContainer = some oc := by
  refine ⟨by simp [comparisons, hn₁, hn₂, hm₁, hm₂], ?_, ?_⟩
  · cases self with
    | generic ms => simp [Container.get_nested_container] at hn₁
    | missingContainer src => simp [Container.get_nested_container] at hn₁
    | oneMember ms =>
        have : ms = [(n₁, f₁)] := hm₁
        subst this
        simpa [Container.get_nested_container] using hn₁
  · cases other with
    | generic ms => simp [Container.get_nested_container] at hn₂
    | missingContainer src => simp [Container.get_nested_container] at hn₂
    | oneMember ms =>
        have : ms = [(n₂, f₂)] := hm₂
        subst this
        simpa [Container.get_nested_container] using hn₂

/-- C5: when exactly one side exposes a nested container, `comparisons` is
the three passes with that side's member mapping replaced by the nested
container's member mapping, the other side's mapping left unchanged. -/
theorem c5_single_nested_substitution (newFile : Bool) (score : File → File → Nat)
    (threshold : Nat) (self other : Container) :
    (∀ nc : Container, self.get_nested_container = some nc →
      other.get_nested_container = none →
      comparisons newFile score threshold self other =
        comparisonsPasses newFile score threshold nc.get_members other.get_members) ∧
    (∀ oc : Container, self.get_nested_container = none →
      other.get_nested_container = some oc →
      comparisons newFile score threshold self other =
        comparisonsPasses newFile score threshold self.get_members oc.get_members) := by
  constructor
  · intro nc h₁ h₂
    simp [comparisons, h₁, h₂]
  · intro oc h₁ h₂
    simp [comparisons, h₁, h₂]

/-- C6: the residual pass runs exactly when the new_file flag is set: with
the flag, after the exact and fuzzy passes every remaining self member is
paired with a `MissingFile('/dev/null', member)` standing in for theirs and
every remaining other member with one standing in for ours; without the
flag, the output ends after the fuzzy pass and no pairing is emitted for
those members. -/
theorem c6_residual_iff_new_file (score : File → File → Nat) (threshold : Nat)
    (self other : Container)
    (hsn : self.get_nested_container = none)
    (hon : other.get_nested_container = none) :
    (comparisons true score threshold self other =
      (exactPass self.get_members other.get_members).1 ++
        (fuzzyPass (perform_fuzzy_matching score threshold
            (exactPass self.get_members other.get_members).2.1
            (exactPass self.get_members other.get_members).2.2)
          (exactPass self.get_members other.get_members).2.1
          (exactPass self.get_members other.get_members).2.2).1 ++
        ((fuzzyPass (perform_fuzzy_matching score threshold
            (exactPass self.get_members other.get_members).2.1
            (exactPass self.get_members other.get_members).2.2)
          (exactPass self.get_members other.get_members).2.1
          (exactPass self.get_members other.get_members).2.2).2.1.map
            (fun p => (p.2, File.missing "/dev/null" (some p.2), (none : Option String))) ++
         (fuzzyPass (perform_fuzzy_matching score threshold
            (exactPass self.get_members other.get_members).2.1
            (exactPass self.get_members other.get_members).2.2)
          (exactPass self.get_members other.get_members).2.1
          (exactPass self.get_members other.get_members).2.2).2.2.map
            (fun p => (File.missing "/dev/null" (some p.2), p.2, (none : Option String))))) ∧
    (comparisons false score threshold self other =
      (exactPass self.get_members other.get_members).1 ++
        (fuzzyPass (perform_fuzzy_matching score threshold
            (exactPass self.get_members other.get_members).2.1
            (exactPass self.get_members other.get_members).2.2)
          (exactPass self.get_members other.get_members).2.1
          (exactPass self.get_members other.get_members).2.2).1) := by
  rw [comparisons_eq_passes true score threshold self other hsn hon,
    comparisons_eq_passes false score threshold self other hsn hon]
  constructor
  · simp [comparisonsPasses, residualPass]
  · simp [comparisonsPasses, residualPass]

/-- C3: `comparisons` is deterministic: in this pure embedding the output is
a function of its inputs, so re-running on identical inputs yields the
identical sequence (the first conjunct is definitional); substantively, the
exact-name pass emits its pairings in self's original listing order (its
left sides are an order-preserving subsequence of self's listing and form
the initial segment of the output), and fuzzy-score ties are broken by the
stable candidate-generation order (sorting preserves the relative order of
equal-score candidates). -/
theorem c3_deterministic_order_stable (newFile : Bool) (score : File → File → Nat)
    (threshold : Nat) (self other : Container)
    (hsn : self.get_nested_container = none)
    (hon : other.get_nested_container = none) :
    comparisons newFile score threshold self other =
      comparisons newFile score threshold self other ∧
    ((exactPass self.get_members other.get_members).1.map (fun p => p.1)).Sublist
      (self.get_members.map Prod.snd) ∧
    (∃ rest, comparisons newFile score threshold self other =
      (exactPass self.get_members other.get_members).1 ++ rest) ∧
    ∀ (l : List (String × String × Nat)) (s : Nat),
      (sortDesc l).filter (fun c => c.2.2 == s) = l.filter (fun c => c.2.2 == s) := by
  refine ⟨rfl, exactPass_lefts_sublist _ _, ?_, fun l s => sortDesc_stable l s⟩
  rw [comparisons_eq_passes newFile score threshold self other hsn hon]
  exact ⟨(fuzzyPass (perform_fuzzy_matching score threshold
      (exactPass self.get_members other.get_members).2.1
      (exactPass self.get_members other.get_members).2.2)
      (exactPass self.get_members other.get_members).2.1
      (exactPass self.get_members other.get_members).2.2).1 ++
      residualPass newFile
        (fuzzyPass (perform_fuzzy_matching score threshold
          (exactPass self.get_members other.get_members).2.1
          (exactPass self.get_members other.get_members).2.2)
          (exactPass self.get_members other.get_members).2.1
          (exactPass self.get_members other.get_members).2.2).2.1
        (fuzzyPass (perform_fuzzy_matching score threshold
          (exactPass self.get_members other.get_members).2.1
          (exactPass self.get_members other.get_members).2.2)
          (exactPass self.get_members other.get_members).2.1
          (exactPass self.get_members other.get_members).2.2).2.2,
    by simp [comparisonsPasses, List.append_assoc]⟩

/-- C4: the fuzzy pass operates only on members left unmatched by the
exact-name pass: it is invoked on the exact pass's reminders and remaining
other members, every match names one member of each, no name is matched
twice, every self member is consumed by at most one of the exact/fuzzy
pairings (the multiset accounting), and the members still unmatched after
the fuzzy pass are exactly what the residual pass receives. -/
theorem c4_fuzzy_only_unmatched (score : File → File → Nat) (threshold : Nat)
    (mine others : List (String × File))
    (e₁ : List Pairing) (rem oth : List (String × File))
    (he : exactPass mine others = (e₁, rem, oth))
    (f₁ : List Pairing) (rem₂ oth₂ : List (String × File))
    (hf : fuzzyPass (perform_fuzzy_matching score threshold rem oth) rem oth =
      (f₁, rem₂, oth₂)) :
    (∀ c ∈ perform_fuzzy_matching score threshold rem oth,
      c.1 ∈ rem.map Prod.fst ∧ c.2.1 ∈ oth.map Prod.fst) ∧
    ((perform_fuzzy_matching score threshold rem oth).map (fun c => c.1)).Nodup ∧
    ((perform_fuzzy_matching score threshold rem oth).map (fun c => c.2.1)).Nodup ∧
    (e₁.map (fun p => p.1) ++ (f₁.map (fun p => p.1) ++ rem₂.map Prod.snd)).Perm
      (mine.map Prod.snd) ∧
    comparisonsPasses true score threshold mine others =
      e₁ ++ f₁ ++ residualPass true rem₂ oth₂ := by
  refine ⟨fun c hc => perform_fuzzy_matching_mem hc,
    (perform_fuzzy_matching_nodup score threshold rem oth).1,
    (perform_fuzzy_matching_nodup score threshold rem oth).2, ?_, ?_⟩
  · have h1 := exactPass_left_perm mine others
    rw [he] at h1
    have h2 := fuzzyPass_left_perm (perform_fuzzy_matching score threshold rem oth) rem oth
    rw [hf] at h2
    exact (List.Perm.append_left _ h2).trans h1
  · simp [comparisonsPasses, he, hf]

/-- C7: a MissingContainer built over a MissingFile whose counterpart
(other_file) carries a container facet reports exactly the counterpart
container's member-name list, and its get_member returns the
MissingFile('/dev/null') sentinel for every requested name instead of
failing. -/
theorem c7_missing_container_mirrors_counterpart (path : String) (f : File)
    (c : Container) (hf : f.asContainer = some c) :
    (Container.missingContainer (.missing path (some f))).get_member_names =
      c.get_member_names ∧
    ∀ nm : String,
      (Container.missingContainer (.missing path (some f))).get_member nm =
        some (File.missing "/dev/null" none) := by
  constructor
  · cases f with
    | real a b oc =>
        cases oc with
        | some c' =>
            simp only [File.asContainer, Option.some.injEq] at hf
            subst hf
            rfl
        | none => simp [File.asContainer] at hf
    | missing a b => simp [File.asContainer] at hf
  · intro nm
    rfl

/-- C8: constructing any Container subclass from a MissingFile source yields
a MissingContainer initialized with that source; from a non-missing source,
an instance of the requested class with that source stored. -/
theorem c8_construction_redirects_missing (cls : ContainerClassId) (source : File) :
    (source.isMissing = true →
      containerNew cls source = ⟨.missingContainerClass, source⟩) ∧
    (source.isMissing = false → containerNew cls source = ⟨cls, source⟩) := by
  constructor <;> intro h <;> simp [containerNew, h]

/-- C9: a first requested name absent from the container makes lookup_file
return the no-result value (the embedding is a total function into `Option`,
so a member-not-found never escalates into a failure), and an intermediate
fetched member without a container facet likewise yields the no-result
value. -/
theorem c9_lookup_file_soft_failure (ms : List (String × File)) (name : String)
    (rest : List String) (habsent : name ∉ ms.map Prod.fst) :
    (Container.generic ms).lookup_file name rest = none ∧
    (Container.oneMember ms).lookup_file name rest = none ∧
    ∀ (c : Container) (nm r : String) (rs : List String) (f : File),
      c.get_member nm = some f → f.asContainer = none →
      c.lookup_file nm (r :: rs) = none := by
  have hfind : ms.find? (fun p => p.1 == name) = none := by
    rw [List.find?_eq_none]
    intro p hp
    simp only [beq_iff_eq]
    intro hpe
    exact habsent (hpe ▸ List.mem_map_of_mem Prod.fst hp)
  refine ⟨?_, ?_, ?_⟩
  · unfold Container.lookup_file
    simp [Container.get_member, hfind]
  · unfold Container.lookup_file
    simp [Container.get_member, hfind]
  · intro c nm r rs f hm hac
    unfold Container.lookup_file
    simp [hm, hac]

/-- C10: ArContainer.get_adjusted_members is exactly the parent's adjusted
members with the "/" (symbol table) and "//" (GNU long-names table) members
removed — an order-preserving sub-list of the parent listing; no other
member is dropped. -/
theorem c10_ar_adjusted_members (members : List (String × File)) :
    arGetAdjustedMembers members =
      members.filter (fun p => decide (p.1 ≠ "/" ∧ p.1 ≠ "//")) ∧
    (arGetAdjustedMembers members).Sublist members := by
  constructor
  · unfold arGetAdjustedMembers
    refine List.filter_congr (fun p _ => ?_)
    by_cases h1 : p.1 = "/"
    · simp [knownIgnores, h1]
    · by_cases h2 : p.1 = "//"
      · simp [knownIgnores, h2]
      · simp [knownIgnores, h1, h2]
  · exact List.filter_sublist _

/-! Witnesses: each claim theorem with hypotheses instantiated at concrete
inputs, every hypothesis discharged by evaluation. -/

/-- Witness for C1 at two concrete flat containers. -/
theorem c1_witness :
    (((comparisons true zeroScore 1 sampleSelf sampleOther).map (fun p => p.1)).filter
        (fun f => !f.isMissing)).Perm (sampleSelf.get_members.map Prod.snd) ∧
    (((comparisons true zeroScore 1 sampleSelf sampleOther).map (fun p => p.2.1)).filter
        (fun f => !f.isMissing)).Perm (sampleOther.get_members.map Prod.snd) :=
  c1_members_paired_exactly_once zeroScore 1 sampleSelf sampleOther rfl rfl
    (by decide) (by decide)

/-- Witness for C2 at two concrete one-member wrappers. -/
theorem c2_witness :
    comparisons false zeroScore 1 sampleNestedSelf sampleNestedOther =
      [(File.real "w1" "" (some sampleNestedInner),
        File.real "w2" "" (some sampleNestedInner), none)] ∧
    (File.real "w1" "" (some sampleNestedInner)).asContainer = some sampleNestedInner ∧
    (File.real "w2" "" (some sampleNestedInner)).asContainer = some sampleNestedInner :=
  c2_both_nested_single_pairing false zeroScore 1 "w1" "w2"
    (File.real "w1" "" (some sampleNestedInner))
    (File.real "w2" "" (some sampleNestedInner))
    sampleNestedInner sampleNestedInner sampleNestedSelf sampleNestedOther
    rfl rfl rfl rfl

/-- Witness for C3 at two concrete flat containers. -/
theorem c3_witness :
    comparisons true zeroScore 1 sampleSelf sampleOther =
      comparisons true zeroScore 1 sampleSelf sampleOther ∧
    ((exactPass sampleSelf.get_members sampleOther.get_members).1.map
        (fun p => p.1)).Sublist (sampleSelf.get_members.map Prod.snd) ∧
    (∃ rest, comparisons true zeroScore 1 sampleSelf sampleOther =
      (exactPass sampleSelf.get_members sampleOther.get_members).1 ++ rest) ∧
    ∀ (l : List (String × String × Nat)) (s : Nat),
      (sortDesc l).filter (fun c => c.2.2 == s) = l.filter (fun c => c.2.2 == s) :=
  c3_deterministic_order_stable true zeroScore 1 sampleSelf sampleOther rfl rfl

/-- Witness for C4 on concrete reminders with one fuzzy match. -/
theorem c4_witness :
    (∀ c ∈ perform_fuzzy_matching zeroScore 0 [("b", fB)] [("c", fC)],
      c.1 ∈ [("b", fB)].map Prod.fst ∧ c.2.1 ∈ [("c", fC)].map Prod.fst) ∧
    ((perform_fuzzy_matching zeroScore 0 [("b", fB)] [("c", fC)]).map
        (fun c => c.1)).Nodup ∧
    ((perform_fuzzy_matching zeroScore 0 [("b", fB)] [("c", fC)]).map
        (fun c => c.2.1)).Nodup ∧
    (([] : List Pairing).map (fun p => p.1) ++
      ([(fB, fC, some (fuzzyComment 0))].map (fun p => p.1) ++
        ([] : List (String × File)).map Prod.snd)).Perm ([("b", fB)].map Prod.snd) ∧
    comparisonsPasses true zeroScore 0 [("b", fB)] [("c", fC)] =
      ([] : List Pairing) ++ [(fB, fC, some (fuzzyComment 0))] ++
        residualPass true [] [] :=
  c4_fuzzy_only_unmatched zeroScore 0 [("b", fB)] [("c", fC)]
    [] [("b", fB)] [("c", fC)] rfl
    [(fB, fC, some (fuzzyComment 0))] [] [] rfl

/-- Witness for C5 in both orientations. -/
theorem c5_witness :
    comparisons false zeroScore 1 sampleNestedSelf sampleOther =
      comparisonsPasses false zeroScore 1 sampleNestedInner.get_members
        sampleOther.get_members ∧
    comparisons false zeroScore 1 sampleOther sampleNestedSelf =
      comparisonsPasses false zeroScore 1 sampleOther.get_members
        sampleNestedInner.get_members :=
  ⟨(c5_single_nested_substitution false zeroScore 1 sampleNestedSelf sampleOther).1
      sampleNestedInner rfl rfl,
    (c5_single_nested_substitution false zeroScore 1 sampleOther sampleNestedSelf).2
      sampleNestedInner rfl rfl⟩

/-- Witness for C6 at two concrete flat containers. -/
theorem c6_witness :
    (comparisons true zeroScore 1 sampleSelf sampleOther =
      (exactPass sampleSelf.get_members sampleOther.get_members).1 ++
        (fuzzyPass (perform_fuzzy_matching zeroScore 1
            (exactPass sampleSelf.get_members sampleOther.get_members).2.1
            (exactPass sampleSelf.get_members sampleOther.get_members).2.2)
          (exactPass sampleSelf.get_members sampleOther.get_members).2.1
          (exactPass sampleSelf.get_members sampleOther.get_members).2.2).1 ++
        ((fuzzyPass (perform_fuzzy_matching zeroScore 1
            (exactPass sampleSelf.get_members sampleOther.get_members).2.1
            (exactPass sampleSelf.get_members sampleOther.get_members).2.2)
          (exactPass sampleSelf.get_members sampleOther.get_members).2.1
          (exactPass sampleSelf.get_members sampleOther.get_members).2.2).2.1.map
            (fun p => (p.2, File.missing "/dev/null" (some p.2), (none : Option String))) ++
         (fuzzyPass (perform_fuzzy_matching zeroScore 1
            (exactPass sampleSelf.get_members sampleOther.get_members).2.1
            (exactPass sampleSelf.get_members sampleOther.get_members).2.2)
          (exactPass sampleSelf.get_members sampleOther.get_members).2.1
          (exactPass sampleSelf.get_members sampleOther.get_members).2.2).2.2.map
            (fun p => (File.missing "/dev/null" (some p.2), p.2, (none : Option String))))) ∧
    (comparisons false zeroScore 1 sampleSelf sampleOther =
      (exactPass sampleSelf.get_members sampleOther.get_members).1 ++
        (fuzzyPass (perform_fuzzy_matching zeroScore 1
            (exactPass sampleSelf.get_members sampleOther.get_members).2.1
            (exactPass sampleSelf.get_members sampleOther.get_members).2.2)
          (exactPass sampleSelf.get_members sampleOther.get_members).2.1
          (exactPass sampleSelf.get_members sampleOther.get_members).2.2).1) :=
  c6_residual_iff_new_file zeroScore 1 sampleSelf sampleOther rfl rfl

/-- Witness for C7 at a concrete counterpart container. -/
theorem c7_witness :
    (Container.missingContainer (.missing "/dev/null"
        (some (File.real "arc" "" (some sampleNestedInner))))).get_member_names =
      sampleNestedInner.get_member_names ∧
    ∀ nm : String,
      (Container.missingContainer (.missing "/dev/null"
          (some (File.real "arc" "" (some sampleNestedInner))))).get_member nm =
        some (File.missing "/dev/null" none) :=
  c7_missing_container_mirrors_counterpart "/dev/null"
    (File.real "arc" "" (some sampleNestedInner)) sampleNestedInner rfl

/-- Witness for C8 with both a missing and a real source. -/
theorem c8_witness :
    containerNew .arContainerClass (File.missing "/dev/null" none) =
      ⟨.missingContainerClass, File.missing "/dev/null" none⟩ ∧
    containerNew .arContainerClass (File.real "a" "x" none) =
      ⟨.arContainerClass, File.real "a" "x" none⟩ :=
  ⟨(c8_construction_redirects_missing .arContainerClass
      (File.missing "/dev/null" none)).1 rfl,
    (c8_construction_redirects_missing .arContainerClass
      (File.real "a" "x" none)).2 rfl⟩

/-- Witness for C9: an absent name and an intermediate non-container. -/
theorem c9_witness :
    (Container.generic [("a", File.real "a" "x" none)]).lookup_file "zz" [] = none ∧
    (Container.oneMember [("a", File.real "a" "x" none)]).lookup_file "zz" [] = none ∧
    (Container.generic [("a", File.real "a" "x" none)]).lookup_file "a" ["b"] = none := by
  have h := c9_lookup_file_soft_failure [("a", File.real "a" "x" none)] "zz" []
    (by decide)
  exact ⟨h.1, h.2.1,
    h.2.2 (Container.generic [("a", File.real "a" "x" none)]) "a" "b" [] _ rfl rfl⟩

end Diffoscope
